import Mathlib

/-!
Verification of `src/fix_svelte_files.py`, a batch text patcher that rewrites a
fixed list of Svelte page files.  Per file the script

1. reads the file content,
2. runs `re.sub(r'\{\s*supabase,\s*session\s*\}\s*=\s*data', '{ session } = data', content)`,
3. if neither `"import { supabase }"` nor `"$lib/supabase"` occurs in the
   content, runs
   `re.sub(r"(import type \{ PageData \} from '.\/\$types';)", r"\1\n  import { supabase } from '$lib/supabase';", content)`,
4. writes the content back, printing `Fixed: <path>` on success and
   `Error fixing <path>: <e>` on any caught exception, and finally prints
   `All files fixed!`.

Text is modelled as `List Char`.  The two regular expressions are linear
literal/whitespace patterns without any backtracking ambiguity (every `\s*` is
followed by a non-whitespace literal character), so each is embedded as a
deterministic prefix parser, and `re.sub`'s leftmost, non-overlapping global
substitution is embedded as a left-to-right scan.
-/

/-- Whitespace test of Python's `\s` for `str` patterns: the characters with
the Unicode `White_Space` property. -/
def isWs (c : Char) : Bool :=
  c = ' ' || c = '\t' || c = '\n' || c = '\r' ||
  c = Char.ofNat 0x0B || c = Char.ofNat 0x0C ||
  c = Char.ofNat 0x1C || c = Char.ofNat 0x1D ||
  c = Char.ofNat 0x1E || c = Char.ofNat 0x1F ||
  c = Char.ofNat 0x85 || c = Char.ofNat 0xA0 ||
  c = Char.ofNat 0x1680 ||
  (0x2000 ≤ c.toNat && c.toNat ≤ 0x200A) ||
  c = Char.ofNat 0x2028 || c = Char.ofNat 0x2029 ||
  c = Char.ofNat 0x202F || c = Char.ofNat 0x205F ||
  c = Char.ofNat 0x3000

/-- All characters of a list are whitespace. -/
def allWs (w : List Char) : Prop := ∀ c ∈ w, isWs c = true

instance (w : List Char) : Decidable (allWs w) := by
  unfold allWs; infer_instance

/-- Greedily drop the leading whitespace run: the action of `\s*` when the
following pattern element starts with a non-whitespace character. -/
def skipWs : List Char → List Char
  | [] => []
  | c :: cs => if isWs c then skipWs cs else c :: cs

/-- Strip a literal prefix, returning the remainder on success. -/
def stripPfx : List Char → List Char → Option (List Char)
  | [], s => some s
  | _ :: _, [] => none
  | p :: ps, c :: cs => if c = p then stripPfx ps cs else none

/-- Literal `supabase,` of the binding-narrowing pattern. -/
def litSupa : List Char := "supabase,".toList

/-- Literal `session` of the binding-narrowing pattern. -/
def litSess : List Char := "session".toList

/-- Literal `data` of the binding-narrowing pattern. -/
def litData : List Char := "data".toList

/-- Matcher for the step-2 pattern `\{\s*supabase,\s*session\s*\}\s*=\s*data`
(source line 18) as a prefix of the input; returns the remainder after the
match.  Every `\s*` is followed by a non-whitespace character, so greedy
whitespace skipping is exactly Python's backtracking semantics here. -/
def matchR1 (s : List Char) : Option (List Char) :=
  (stripPfx ['{'] s).bind fun s1 =>
  (stripPfx litSupa (skipWs s1)).bind fun s2 =>
  (stripPfx litSess (skipWs s2)).bind fun s3 =>
  (stripPfx ['}'] (skipWs s3)).bind fun s4 =>
  (stripPfx ['='] (skipWs s4)).bind fun s5 =>
  stripPfx litData (skipWs s5)

/-- Replacement text `{ session } = data` of source line 18. -/
def repl : List Char := "{ session } = data".toList

/-- Fixed part of the step-3 anchor pattern before the wildcard:
`import type \{ PageData \} from '` (source line 24). -/
def anchorA : List Char := "import type { PageData } from '".toList

/-- Fixed part of the step-3 anchor pattern after the wildcard:
`\/\$types';` (source line 24). -/
def anchorB : List Char := "/$types';".toList

/-- Matcher for the step-3 anchor pattern
`(import type \{ PageData \} from '.\/\$types';)` as a prefix of the input.
The unescaped `.` matches any single character except a newline; the matched
character and the remainder are returned. -/
def matchR2 (s : List Char) : Option (Char × List Char) :=
  (stripPfx anchorA s).bind fun t =>
    match t with
    | [] => none
    | c :: t2 =>
      if c = '\n' then none
      else (stripPfx anchorB t2).map fun r => (c, r)

/-- Text inserted by step 3 after the anchor match: the `\n  import { supabase } from '$lib/supabase';`
tail of the replacement template on source line 25 (group `\1` reproduces the
match itself, which the embedding keeps in place). -/
def ins : List Char := "\n  import { supabase } from '$lib/supabase';".toList

/-- First marker of the step-3 guard (source line 21): `import { supabase }`. -/
def marker1 : List Char := "import { supabase }".toList

/-- Second marker of the step-3 guard (source line 21): `$lib/supabase`. -/
def marker2 : List Char := "$lib/supabase".toList

example : matchR1 "{ supabase, session } = data!".toList = some ['!'] := rfl
example : matchR1 "{ supabase , session } = data".toList = none := rfl
example : ∀ Y : List Char, matchR1 ('{' :: ' ' :: 's' :: 'e' :: Y) = none := fun _ => rfl
example : matchR2 ("import type { PageData } from './$types';!").toList = some ('.', ['!']) := rfl
example : matchR2 ("import type { PageData } from 'x/$types';").toList = some ('x', []) := rfl

/-- Stripping a literal prefix succeeds exactly when the input starts with it. -/
theorem stripPfx_eq_some (p : List Char) : ∀ s r, (stripPfx p s = some r ↔ s = p ++ r) := by
  induction p with
  | nil => intro s r; simp [stripPfx]
  | cons x ps ih =>
    intro s r
    cases s with
    | nil => simp [stripPfx]
    | cons c cs =>
      by_cases h : c = x
      · subst h; simp [stripPfx, ih]
      · simp [stripPfx, h]

/-- Stripping a literal prefix from a string that starts with it. -/
theorem stripPfx_append (p r : List Char) : stripPfx p (p ++ r) = some r :=
  (stripPfx_eq_some p (p ++ r) r).mpr rfl

/-- Every string is a whitespace run followed by its `skipWs` image. -/
theorem skipWs_decomp : ∀ s : List Char, ∃ w, allWs w ∧ s = w ++ skipWs s := by
  intro s
  induction s with
  | nil => exact ⟨[], by simp [allWs], rfl⟩
  | cons c cs ih =>
    by_cases h : isWs c = true
    · obtain ⟨w, hw, hs⟩ := ih
      refine ⟨c :: w, ?_, ?_⟩
      · intro d hd
        rcases List.mem_cons.mp hd with rfl | hd
        · exact h
        · exact hw d hd
      · simp only [skipWs, h, if_true, List.cons_append]
        exact congrArg (c :: ·) hs
    · refine ⟨[], by simp [allWs], ?_⟩
      simp only [skipWs, h, if_false, List.nil_append]
      simp [h]

/-- `skipWs` consumes any leading all-whitespace run. -/
theorem skipWs_ws_append {w : List Char} (hw : allWs w) (t : List Char) :
    skipWs (w ++ t) = skipWs t := by
  induction w with
  | nil => rfl
  | cons c w ih =>
    have hc : isWs c = true := hw c (List.mem_cons_self c w)
    have hw' : allWs w := fun d hd => hw d (List.mem_cons_of_mem c hd)
    simp [skipWs, hc, ih hw']

theorem skipWs_litSupa (t : List Char) : skipWs (litSupa ++ t) = litSupa ++ t := rfl

theorem skipWs_litSess (t : List Char) : skipWs (litSess ++ t) = litSess ++ t := rfl

theorem skipWs_litData (t : List Char) : skipWs (litData ++ t) = litData ++ t := rfl

theorem skipWs_braceR (t : List Char) : skipWs ('}' :: t) = '}' :: t := rfl

theorem skipWs_eqCh (t : List Char) : skipWs ('=' :: t) = '=' :: t := rfl

theorem stripPfx_braceL (t : List Char) : stripPfx ['{'] ('{' :: t) = some t := rfl

theorem stripPfx_braceR (t : List Char) : stripPfx ['}'] ('}' :: t) = some t := rfl

theorem stripPfx_eqCh (t : List Char) : stripPfx ['='] ('=' :: t) = some t := rfl

theorem optBind_some {α β : Type} (a : α) (f : α → Option β) : (some a).bind f = f a := rfl

/-- Strings of the step-2 pattern language: `{` ws `supabase,` ws `session` ws
`}` ws `=` ws `data`, whitespace runs of any length in exactly those five
gaps. -/
def MatchStr (m : List Char) : Prop :=
  ∃ w1 w2 w3 w4 w5, allWs w1 ∧ allWs w2 ∧ allWs w3 ∧ allWs w4 ∧ allWs w5 ∧
    m = '{' :: (w1 ++ (litSupa ++ (w2 ++ (litSess ++ (w3 ++ ('}' :: (w4 ++ ('=' :: (w5 ++ litData)))))))))

/-- `matchR1` succeeds exactly on inputs that start with a pattern string;
the returned remainder is what follows it. -/
theorem matchR1_eq_some {s r : List Char} :
    matchR1 s = some r ↔ ∃ m, MatchStr m ∧ s = m ++ r := by
  constructor
  · intro h
    unfold matchR1 at h
    rw [Option.bind_eq_some] at h
    obtain ⟨s1, h1, h⟩ := h
    rw [Option.bind_eq_some] at h
    obtain ⟨s2, h2, h⟩ := h
    rw [Option.bind_eq_some] at h
    obtain ⟨s3, h3, h⟩ := h
    rw [Option.bind_eq_some] at h
    obtain ⟨s4, h4, h⟩ := h
    rw [Option.bind_eq_some] at h
    obtain ⟨s5, h5, h6⟩ := h
    rw [stripPfx_eq_some] at h1 h2 h3 h4 h5 h6
    obtain ⟨w1, hw1, e1⟩ := skipWs_decomp s1
    obtain ⟨w2, hw2, e2⟩ := skipWs_decomp s2
    obtain ⟨w3, hw3, e3⟩ := skipWs_decomp s3
    obtain ⟨w4, hw4, e4⟩ := skipWs_decomp s4
    obtain ⟨w5, hw5, e5⟩ := skipWs_decomp s5
    refine ⟨_, ⟨w1, w2, w3, w4, w5, hw1, hw2, hw3, hw4, hw5, rfl⟩, ?_⟩
    rw [h1, e1, h2, e2, h3, e3, h4, e4, h5, e5, h6]
    simp [List.append_assoc]
  · rintro ⟨m, ⟨w1, w2, w3, w4, w5, hw1, hw2, hw3, hw4, hw5, rfl⟩, rfl⟩
    simp only [matchR1, List.cons_append, List.append_assoc, stripPfx_braceL, optBind_some,
      skipWs_ws_append hw1, skipWs_ws_append hw2, skipWs_ws_append hw3, skipWs_ws_append hw4,
      skipWs_ws_append hw5, skipWs_litSupa, skipWs_litSess, skipWs_litData, skipWs_braceR,
      skipWs_eqCh, stripPfx_append, stripPfx_braceR, stripPfx_eqCh]

/-- A pattern string starts with an opening brace. -/
theorem MatchStr_head {m : List Char} (h : MatchStr m) : ∃ t, m = '{' :: t := by
  obtain ⟨w1, w2, w3, w4, w5, _, _, _, _, _, rfl⟩ := h
  exact ⟨_, rfl⟩

/-- A successful `matchR1` consumes at least one character. -/
theorem matchR1_length {s r : List Char} (h : matchR1 s = some r) : r.length < s.length := by
  obtain ⟨m, hm, rfl⟩ := matchR1_eq_some.mp h
  obtain ⟨t, rfl⟩ := MatchStr_head hm
  simp [List.length_append]
  omega

/-- A character that is not whitespace does not occur in an all-whitespace run. -/
theorem not_mem_of_ws {c : Char} {w : List Char} (hw : allWs w) (hc : isWs c = false) :
    c ∉ w := fun h => by rw [hw c h] at hc; cases hc

/-- The opening brace occurs only at the head of a pattern string. -/
theorem MatchStr_brace_tail {m t : List Char} (h : MatchStr m) (e : m = '{' :: t) :
    '{' ∉ t := by
  obtain ⟨w1, w2, w3, w4, w5, hw1, hw2, hw3, hw4, hw5, rfl⟩ := h
  obtain ⟨-, rfl⟩ : '{' = '{' ∧
      w1 ++ (litSupa ++ (w2 ++ (litSess ++ (w3 ++ ('}' :: (w4 ++ ('=' :: (w5 ++ litData)))))))) = t :=
    List.cons_eq_cons.mp e
  intro hmem
  simp only [List.mem_append, List.mem_cons] at hmem
  rcases hmem with h | h | h | h | h | h | h | h | h
  · exact not_mem_of_ws hw1 (by decide) h
  · exact absurd h (by decide)
  · exact not_mem_of_ws hw2 (by decide) h
  · exact absurd h (by decide)
  · exact not_mem_of_ws hw3 (by decide) h
  · exact absurd h (by decide)
  · exact not_mem_of_ws hw4 (by decide) h
  · exact absurd h (by decide)
  rcases h with h | h
  · exact not_mem_of_ws hw5 (by decide) h
  · exact absurd h (by decide)

/-- A pattern string ends in the letter `a` (the last letter of `data`). -/
theorem MatchStr_last {m : List Char} (h : MatchStr m) : ∃ u, m = u ++ ['a'] := by
  obtain ⟨w1, w2, w3, w4, w5, _, _, _, _, _, rfl⟩ := h
  refine ⟨'{' :: (w1 ++ (litSupa ++ (w2 ++ (litSess ++ (w3 ++ ('}' :: (w4 ++ ('=' :: (w5 ++ ['d', 'a', 't']))))))))), ?_⟩
  have hd : litData = ['d', 'a', 't'] ++ ['a'] := rfl
  rw [hd]
  simp [List.append_assoc]

/-- If `y` occurs in `a ++ b` but not in `a`, the occurrence is inside `b`. -/
theorem splitRight : ∀ (a b u v : List Char) (y : Char), a ++ b = u ++ y :: v → y ∉ a →
    ∃ w, u = a ++ w ∧ b = w ++ y :: v := by
  intro a
  induction a with
  | nil =>
    intro b u v y h _
    exact ⟨u, by simp, h⟩
  | cons x a ih =>
    intro b u v y h hy
    cases u with
    | nil =>
      rw [List.nil_append] at h
      rw [List.cons_append] at h
      obtain ⟨rfl, -⟩ := List.cons_eq_cons.mp h
      exact absurd (List.mem_cons_self x a) hy
    | cons x' u' =>
      rw [List.cons_append, List.cons_append] at h
      obtain ⟨rfl, h2⟩ := List.cons_eq_cons.mp h
      have hy' : y ∉ a := fun hm => hy (List.mem_cons_of_mem _ hm)
      obtain ⟨w, hw1, hw2⟩ := ih b u' v y h2 hy'
      exact ⟨w, by rw [List.cons_append, hw1], hw2⟩

/-- If `y` occurs in `a ++ b` but not in `b`, the occurrence is inside `a`. -/
theorem splitLeft : ∀ (u a b v : List Char) (y : Char), a ++ b = u ++ y :: v → y ∉ b →
    ∃ w, a = u ++ y :: w ∧ v = w ++ b := by
  intro u
  induction u with
  | nil =>
    intro a b v y h hy
    cases a with
    | nil =>
      rw [List.nil_append] at h
      subst h
      exact absurd (List.mem_cons_self y v) hy
    | cons x a' =>
      rw [List.cons_append, List.nil_append] at h
      obtain ⟨rfl, rfl⟩ := List.cons_eq_cons.mp h
      exact ⟨a', rfl, rfl⟩
  | cons z u' ih =>
    intro a b v y h hy
    cases a with
    | nil =>
      rw [List.nil_append] at h
      subst h
      exact absurd (List.mem_cons_of_mem z (List.mem_append_right u' (List.mem_cons_self y v))) hy
    | cons x a' =>
      rw [List.cons_append, List.cons_append] at h
      obtain ⟨rfl, h2⟩ := List.cons_eq_cons.mp h
      obtain ⟨w, hw1, hw2⟩ := ih a' b v y h2 hy
      exact ⟨w, by rw [List.cons_append, hw1], hw2⟩

/-- Indexing past a left factor of an append. -/
theorem getD_app (a b : List Char) (k : Nat) (d : Char) :
    (a ++ b).getD (a.length + k) d = b.getD k d := by
  induction a with
  | nil => rw [List.nil_append, List.length_nil, Nat.zero_add]
  | cons x a ih =>
    rw [List.cons_append, List.length_cons, Nat.add_right_comm, List.getD_cons_succ]
    exact ih

/-- Matching last elements of equal concat-form lists. -/
theorem concat_last {a b : List Char} {x y : Char} (h : a ++ [x] = b ++ [y]) : x = y := by
  have h1 := congrArg List.getLast? h
  rw [List.getLast?_concat, List.getLast?_concat] at h1
  exact Option.some.inj h1

/-- In a pattern string, every occurrence of `i` is preceded by an `s`
(the `i` of `session`). -/
theorem MatchStr_i_prev {m u v : List Char} (h : MatchStr m) (e : m = u ++ 'i' :: v) :
    ∃ u', u = u' ++ ['s'] := by
  obtain ⟨w1, w2, w3, w4, w5, hw1, hw2, hw3, hw4, hw5, rfl⟩ := h
  cases u with
  | nil =>
    rw [List.nil_append] at e
    obtain ⟨e1, -⟩ := List.cons_eq_cons.mp e
    exact absurd e1 (by decide)
  | cons z u₁ =>
    rw [List.cons_append] at e
    obtain ⟨rfl, e2⟩ := List.cons_eq_cons.mp e
    obtain ⟨t1, rfl, e3⟩ := splitRight w1 _ u₁ v 'i' e2 (not_mem_of_ws hw1 (by decide))
    obtain ⟨t2, rfl, e4⟩ := splitRight litSupa _ t1 v 'i' e3 (by decide)
    obtain ⟨t3, rfl, e5⟩ := splitRight w2 _ t2 v 'i' e4 (not_mem_of_ws hw2 (by decide))
    have hni : 'i' ∉ (w3 ++ ('}' :: (w4 ++ ('=' :: (w5 ++ litData))))) := by
      intro hm
      simp only [List.mem_append, List.mem_cons] at hm
      rcases hm with h | h | h | h | h | h
      · exact not_mem_of_ws hw3 (by decide) h
      · exact absurd h (by decide)
      · exact not_mem_of_ws hw4 (by decide) h
      · exact absurd h (by decide)
      · exact not_mem_of_ws hw5 (by decide) h
      · exact absurd h (by decide)
    obtain ⟨w', e6, -⟩ := splitLeft t3 litSess _ v 'i' e5 hni
    have hlen : t3.length ≤ 6 := by
      have := congrArg List.length e6
      simp only [List.length_append, List.length_cons] at this
      have h7 : litSess.length = 7 := rfl
      omega
    have hat : litSess.getD t3.length 'x' = 'i' := by
      conv_lhs => rw [e6]
      have := getD_app t3 ('i' :: w') 0 'x'
      rw [Nat.add_zero] at this
      rw [this]
      rfl
    have h4 : t3.length = 4 := by
      interval_cases h : t3.length <;> revert hat <;> decide
    have ht3 : t3 = ['s', 'e', 's', 's'] := by
      have := congrArg (List.take t3.length) e6
      rw [List.take_left] at this
      rw [← this, h4]
      rfl
    subst ht3
    exact ⟨'{' :: (w1 ++ (litSupa ++ (w2 ++ ['s', 'e', 's']))), by simp [List.append_assoc]⟩

/-- In a pattern string, the character right before an `i` is an `s`. -/
theorem MatchStr_adj {m u v : List Char} {x : Char} (h : MatchStr m)
    (e : m = u ++ x :: 'i' :: v) : x = 's' := by
  have e2 : m = (u ++ [x]) ++ 'i' :: v := by rw [e]; simp [List.append_assoc]
  obtain ⟨u', hu⟩ := MatchStr_i_prev h e2
  exact concat_last hu

/-- Splitting an append equation when the left side of the right-hand
decomposition is at most the left factor. -/
theorem takeSplit : ∀ (m a b r : List Char), a ++ b = m ++ r → m.length ≤ a.length →
    ∃ q, a = m ++ q ∧ r = q ++ b := by
  intro m
  induction m with
  | nil =>
    intro a b r h _
    exact ⟨a, rfl, by simpa using h.symm⟩
  | cons x m ih =>
    intro a b r h hl
    cases a with
    | nil => simp at hl
    | cons c a' =>
      rw [List.cons_append, List.cons_append] at h
      obtain ⟨rfl, h2⟩ := List.cons_eq_cons.mp h
      obtain ⟨q, hq1, hq2⟩ := ih a' b r h2 (by simp only [List.length_cons] at hl ⊢; omega)
      exact ⟨q, by rw [List.cons_append, hq1], hq2⟩

/-- A prefix long enough to cover position `|w|` of `w ++ x :: R` contains that
`x`, right after a prefix of length `|w|`. -/
theorem window1 : ∀ (w R m r : List Char) (x : Char), w ++ x :: R = m ++ r →
    w.length + 1 ≤ m.length → ∃ u v, m = u ++ x :: v ∧ u.length = w.length := by
  intro w
  induction w with
  | nil =>
    intro R m r x h hl
    cases m with
    | nil => simp at hl
    | cons c1 m1 =>
      rw [List.nil_append, List.cons_append] at h
      obtain ⟨rfl, -⟩ := List.cons_eq_cons.mp h
      exact ⟨[], m1, rfl, rfl⟩
  | cons c w ih =>
    intro R m r x h hl
    cases m with
    | nil => simp at hl
    | cons c1 m1 =>
      rw [List.cons_append, List.cons_append] at h
      obtain ⟨rfl, h2⟩ := List.cons_eq_cons.mp h
      obtain ⟨u, v, hu, hul⟩ := ih R m1 r x h2 (by simp only [List.length_cons] at hl ⊢; omega)
      exact ⟨c :: u, v, by rw [hu]; rfl, by simp [hul]⟩

/-- A prefix long enough to cover positions `|w|` and `|w| + 1` of
`w ++ x :: y :: R` contains the pair `x, y` adjacently. -/
theorem window2 : ∀ (w R m r : List Char) (x y : Char), w ++ x :: y :: R = m ++ r →
    w.length + 2 ≤ m.length → ∃ u v, m = u ++ x :: y :: v := by
  intro w
  induction w with
  | nil =>
    intro R m r x y h hl
    cases m with
    | nil => simp at hl
    | cons c1 m1 =>
      cases m1 with
      | nil => simp at hl
      | cons c2 m2 =>
        rw [List.nil_append, List.cons_append, List.cons_append] at h
        obtain ⟨rfl, h2⟩ := List.cons_eq_cons.mp h
        obtain ⟨rfl, -⟩ := List.cons_eq_cons.mp h2
        exact ⟨[], m2, rfl⟩
  | cons c w ih =>
    intro R m r x y h hl
    cases m with
    | nil => simp at hl
    | cons c1 m1 =>
      rw [List.cons_append, List.cons_append] at h
      obtain ⟨rfl, h2⟩ := List.cons_eq_cons.mp h
      obtain ⟨u, v, hu⟩ := ih R m1 r x y h2 (by simp only [List.length_cons] at hl ⊢; omega)
      exact ⟨c :: u, v, by rw [hu]; rfl⟩

/-- Dropping the length of a left factor of an append. -/
theorem drop_app_add (a b : List Char) (n : Nat) : (a ++ b).drop (a.length + n) = b.drop n := by
  induction a with
  | nil => simp
  | cons x a ih =>
    rw [List.cons_append, List.length_cons, Nat.add_right_comm, List.drop_succ_cons]
    exact ih

/-- Dropping at most the length of a left factor of an append. -/
theorem drop_app_le (a b : List Char) (n : Nat) (h : n ≤ a.length) :
    (a ++ b).drop n = a.drop n ++ b := by
  induction a generalizing n with
  | nil =>
    have hn : n = 0 := by simpa using h
    subst hn; rfl
  | cons x a ih =>
    cases n with
    | zero => rfl
    | succ n =>
      rw [List.cons_append, List.drop_succ_cons, List.drop_succ_cons]
      exact ih n (by simp only [List.length_cons] at h; omega)

/-- Fuel-indexed global substitution for the step-2 pattern: the embedding of
`re.sub` on source line 18, scanning left to right, replacing each leftmost
match and resuming right after it.  With fuel at least the input length the
fuel never runs out. -/
def sub1F : Nat → List Char → List Char
  | 0, s => s
  | _ + 1, [] => []
  | n + 1, c :: cs =>
    match matchR1 (c :: cs) with
    | some rest => repl ++ sub1F n rest
    | none => c :: sub1F n cs

/-- Step 2 of the script: the binding-narrowing substitution of source line 18. -/
def sub1 (s : List Char) : List Char := sub1F s.length s

theorem sub1F_nil : ∀ n, sub1F n [] = [] := by
  intro n; cases n <;> rfl

theorem sub1F_cons_some {c : Char} {cs rest : List Char} {n : Nat}
    (h : matchR1 (c :: cs) = some rest) :
    sub1F (n + 1) (c :: cs) = repl ++ sub1F n rest := by
  rw [show sub1F (n + 1) (c :: cs) = (match matchR1 (c :: cs) with
    | some rest => repl ++ sub1F n rest
    | none => c :: sub1F n cs) from rfl, h]

theorem sub1F_cons_none {c : Char} {cs : List Char} {n : Nat}
    (h : matchR1 (c :: cs) = none) :
    sub1F (n + 1) (c :: cs) = c :: sub1F n cs := by
  rw [show sub1F (n + 1) (c :: cs) = (match matchR1 (c :: cs) with
    | some rest => repl ++ sub1F n rest
    | none => c :: sub1F n cs) from rfl, h]

/-- The fuel does not matter once it is at least the input length. -/
theorem sub1F_congr : ∀ (k : Nat) (s : List Char) (n m : Nat),
    s.length ≤ k → s.length ≤ n → s.length ≤ m → sub1F n s = sub1F m s := by
  intro k
  induction k with
  | zero =>
    intro s n m hk _ _
    have hs : s = [] := List.length_eq_zero.mp (Nat.le_zero.mp hk)
    subst hs
    rw [sub1F_nil, sub1F_nil]
  | succ k ih =>
    intro s n m hk hn hm
    cases s with
    | nil => rw [sub1F_nil, sub1F_nil]
    | cons c cs =>
      obtain ⟨n', rfl⟩ : ∃ n', n = n' + 1 :=
        ⟨n - 1, by simp only [List.length_cons] at hn; omega⟩
      obtain ⟨m', rfl⟩ : ∃ m', m = m' + 1 :=
        ⟨m - 1, by simp only [List.length_cons] at hm; omega⟩
      cases hm1 : matchR1 (c :: cs) with
      | some rest =>
        rw [sub1F_cons_some hm1, sub1F_cons_some hm1]
        have hr := matchR1_length hm1
        simp only [List.length_cons] at hr hk hn hm
        exact congrArg (repl ++ ·) (ih rest n' m' (by omega) (by omega) (by omega))
      | none =>
        rw [sub1F_cons_none hm1, sub1F_cons_none hm1]
        simp only [List.length_cons] at hk hn hm
        exact congrArg (c :: ·) (ih cs n' m' (by omega) (by omega) (by omega))

theorem sub1_nil : sub1 [] = [] := rfl

theorem sub1_cons_some {c : Char} {cs rest : List Char} (h : matchR1 (c :: cs) = some rest) :
    sub1 (c :: cs) = repl ++ sub1 rest := by
  unfold sub1
  rw [List.length_cons, sub1F_cons_some h]
  have hr := matchR1_length h
  simp only [List.length_cons] at hr
  exact congrArg (repl ++ ·)
    (sub1F_congr cs.length rest cs.length rest.length (by omega) (by omega) le_rfl)

theorem sub1_cons_none {c : Char} {cs : List Char} (h : matchR1 (c :: cs) = none) :
    sub1 (c :: cs) = c :: sub1 cs := by
  unfold sub1
  rw [List.length_cons, sub1F_cons_none h]

/-- No step-2 match starts at any position of `s`. -/
def clean1 (s : List Char) : Prop := ∀ i, matchR1 (s.drop i) = none

theorem clean1_nil : clean1 [] := by
  intro i; rw [List.drop_nil]; rfl

theorem clean1_cons {c : Char} {cs : List Char} (h : clean1 (c :: cs)) : clean1 cs := by
  intro i
  have h1 := h (i + 1)
  rwa [List.drop_succ_cons] at h1

theorem clean1_of_cons {c : Char} {cs : List Char} (h0 : matchR1 (c :: cs) = none)
    (h : clean1 cs) : clean1 (c :: cs) := by
  intro i
  cases i with
  | zero => exact h0
  | succ i => rw [List.drop_succ_cons]; exact h i

/-- Step 2 is the identity on match-free text. -/
theorem sub1_id {s : List Char} (h : clean1 s) : sub1 s = s := by
  induction s with
  | nil => rfl
  | cons c cs ih =>
    rw [sub1_cons_none (h 0), ih (clean1_cons h)]

/-- Structure of the step-2 output: either nothing matches anywhere and the
text is unchanged, or the text splits at a match that the output replaces by
the canonical replacement text. -/
theorem sub1_struct : ∀ s : List Char, (sub1 s = s ∧ clean1 s) ∨
    ∃ p m r Y, MatchStr m ∧ s = p ++ (m ++ r) ∧ sub1 s = p ++ (repl ++ Y) := by
  intro s
  induction s with
  | nil => exact Or.inl ⟨rfl, clean1_nil⟩
  | cons c cs ih =>
    cases hm : matchR1 (c :: cs) with
    | some rest =>
      obtain ⟨m, hms, he⟩ := matchR1_eq_some.mp hm
      exact Or.inr ⟨[], m, rest, sub1 rest, hms, by simpa using he,
        by simpa using sub1_cons_some hm⟩
    | none =>
      rcases ih with ⟨hid, hcl⟩ | ⟨p, m, r, Y, hms, he, ho⟩
      · exact Or.inl ⟨by rw [sub1_cons_none hm, hid], clean1_of_cons hm hcl⟩
      · exact Or.inr ⟨c :: p, m, r, Y, hms, by rw [he]; rfl,
          by rw [sub1_cons_none hm, ho]; rfl⟩

/-- No step-2 match starts inside the replacement text, whatever follows. -/
theorem repl_drop_none : ∀ (i : Nat) (Y : List Char), i < 18 →
    matchR1 (repl.drop i ++ Y) = none := by
  intro i Y hi
  interval_cases i <;> rfl

/-- The output of step 2 contains no match of the step-2 pattern anywhere:
the replacement text cannot take part in a new match. -/
theorem sub1_clean : ∀ (k : Nat) (s : List Char), s.length ≤ k → clean1 (sub1 s) := by
  intro k
  induction k with
  | zero =>
    intro s hk
    have hs : s = [] := List.length_eq_zero.mp (Nat.le_zero.mp hk)
    subst hs
    exact clean1_nil
  | succ k ih =>
    intro s hk
    cases s with
    | nil => exact clean1_nil
    | cons c cs =>
      cases hm : matchR1 (c :: cs) with
      | some rest =>
        rw [sub1_cons_some hm]
        intro i
        by_cases hi : i < 18
        · rw [drop_app_le repl (sub1 rest) i (by rw [show repl.length = 18 from rfl]; omega)]
          exact repl_drop_none i _ hi
        · have hrl : repl.length = 18 := rfl
          have hieq : i = repl.length + (i - 18) := by omega
          rw [hieq, drop_app_add]
          have hr := matchR1_length hm
          simp only [List.length_cons] at hr hk
          exact ih rest (by omega) (i - 18)
      | none =>
        rw [sub1_cons_none hm]
        have ihc : clean1 (sub1 cs) :=
          ih cs (by simp only [List.length_cons] at hk; omega)
        refine clean1_of_cons ?_ ihc
        by_cases hne : matchR1 (c :: sub1 cs) = none
        · exact hne
        obtain ⟨r', hr'⟩ : ∃ r', matchR1 (c :: sub1 cs) = some r' := by
          cases hx : matchR1 (c :: sub1 cs) with
          | none => exact absurd hx hne
          | some v => exact ⟨v, rfl⟩
        exfalso
        obtain ⟨m', hm', he'⟩ := matchR1_eq_some.mp hr'
        rcases sub1_struct cs with ⟨hid, -⟩ | ⟨p, mm, r, Y, hmm, hcs, hout⟩
        · rw [hid] at he'
          have hcontra := matchR1_eq_some.mpr ⟨m', hm', he'⟩
          rw [hm] at hcontra
          exact Option.noConfusion hcontra
        · rw [hout] at he'
          by_cases hlen : m'.length ≤ (c :: p).length
          · have he2 : (c :: p) ++ (repl ++ Y) = m' ++ r' := he'
            obtain ⟨q, hq1, hq2⟩ := takeSplit m' (c :: p) (repl ++ Y) r' he2 hlen
            have hfull : c :: cs = m' ++ (q ++ (mm ++ r)) := by
              have h3 : c :: cs = (c :: p) ++ (mm ++ r) := by rw [hcs]; rfl
              rw [h3, hq1, List.append_assoc]
            have hcontra := matchR1_eq_some.mpr ⟨m', hm', hfull⟩
            rw [hm] at hcontra
            exact Option.noConfusion hcontra
          · push_neg at hlen
            have he2 : (c :: p) ++ ('{' :: (" session \x7d = data".toList ++ Y)) = m' ++ r' := he'
            obtain ⟨u, v, hmu, hul⟩ :=
              window1 (c :: p) _ m' r' '{' he2 (by omega)
            obtain ⟨t, hmt⟩ := MatchStr_head hm'
            cases u with
            | nil =>
              rw [List.length_nil, List.length_cons] at hul
              omega
            | cons z u2 =>
              rw [hmt] at hmu
              obtain ⟨rfl, ht⟩ := List.cons_eq_cons.mp hmu
              have hin : '{' ∈ t := by
                rw [ht]
                exact List.mem_append_right u2 (List.mem_cons_self _ _)
              exact absurd hin (MatchStr_brace_tail hm' hmt)

/-- The full text matched by the anchor pattern when the wildcard position
holds `c`. -/
def anchorM (c : Char) : List Char := anchorA ++ c :: anchorB

theorem anchorM_length (c : Char) : (anchorM c).length = 41 := by
  simp only [anchorM, List.length_append, List.length_cons]
  rfl

theorem matchR2_nil : matchR2 [] = none := rfl

/-- `matchR2` succeeds exactly on inputs that start with the anchor text:
the fixed prefix, any non-newline character, then the fixed suffix. -/
theorem matchR2_eq_some {s : List Char} {c : Char} {r : List Char} :
    matchR2 s = some (c, r) ↔ c ≠ '\n' ∧ s = anchorM c ++ r := by
  constructor
  · intro h
    unfold matchR2 at h
    rw [Option.bind_eq_some] at h
    obtain ⟨t, h1, h2⟩ := h
    rw [stripPfx_eq_some] at h1
    cases t with
    | nil => exact absurd h2 (by simp)
    | cons c0 t2 =>
      change (if c0 = '\n' then none
        else (stripPfx anchorB t2).map fun r => (c0, r)) = some (c, r) at h2
      by_cases hnl : c0 = '\n'
      · rw [if_pos hnl] at h2; exact absurd h2 (by simp)
      · rw [if_neg hnl] at h2
        rw [Option.map_eq_some'] at h2
        obtain ⟨r0, hr0, heq⟩ := h2
        obtain ⟨rfl, rfl⟩ := Prod.mk.injEq .. ▸ heq
        rw [stripPfx_eq_some] at hr0
        subst hr0
        exact ⟨hnl, by rw [h1]; simp [anchorM, List.append_assoc]⟩
  · rintro ⟨hnl, rfl⟩
    unfold matchR2
    have ha : anchorM c ++ r = anchorA ++ (c :: (anchorB ++ r)) := by
      simp [anchorM, List.append_assoc]
    rw [ha, stripPfx_append, optBind_some]
    change (if c = '\n' then none else (stripPfx anchorB (anchorB ++ r)).map fun r => (c, r)) = _
    rw [if_neg hnl, stripPfx_append]
    rfl

/-- A successful `matchR2` consumes exactly 41 characters. -/
theorem matchR2_length {s : List Char} {c : Char} {r : List Char}
    (h : matchR2 s = some (c, r)) : r.length + 41 = s.length := by
  obtain ⟨-, rfl⟩ := matchR2_eq_some.mp h
  rw [List.length_append, anchorM_length]
  omega

/-- Fuel-indexed global substitution for the step-3 anchor pattern: the
embedding of `re.sub` on source lines 23 to 27.  The replacement template is
the matched group followed by the inserted import line, so the match is kept
and `ins` is inserted right after it. -/
def sub2F : Nat → List Char → List Char
  | 0, s => s
  | _ + 1, [] => []
  | n + 1, c0 :: cs =>
    match matchR2 (c0 :: cs) with
    | some (c, rest) => anchorM c ++ (ins ++ sub2F n rest)
    | none => c0 :: sub2F n cs

/-- The substitution of step 3 of the script, before its marker guard. -/
def sub2 (s : List Char) : List Char := sub2F s.length s

theorem sub2F_nil : ∀ n, sub2F n [] = [] := by
  intro n; cases n <;> rfl

theorem sub2F_cons_some {c0 c : Char} {cs rest : List Char} {n : Nat}
    (h : matchR2 (c0 :: cs) = some (c, rest)) :
    sub2F (n + 1) (c0 :: cs) = anchorM c ++ (ins ++ sub2F n rest) := by
  rw [show sub2F (n + 1) (c0 :: cs) = (match matchR2 (c0 :: cs) with
    | some (c, rest) => anchorM c ++ (ins ++ sub2F n rest)
    | none => c0 :: sub2F n cs) from rfl, h]

theorem sub2F_cons_none {c0 : Char} {cs : List Char} {n : Nat}
    (h : matchR2 (c0 :: cs) = none) :
    sub2F (n + 1) (c0 :: cs) = c0 :: sub2F n cs := by
  rw [show sub2F (n + 1) (c0 :: cs) = (match matchR2 (c0 :: cs) with
    | some (c, rest) => anchorM c ++ (ins ++ sub2F n rest)
    | none => c0 :: sub2F n cs) from rfl, h]

/-- The fuel does not matter once it is at least the input length. -/
theorem sub2F_congr : ∀ (k : Nat) (s : List Char) (n m : Nat),
    s.length ≤ k → s.length ≤ n → s.length ≤ m → sub2F n s = sub2F m s := by
  intro k
  induction k with
  | zero =>
    intro s n m hk _ _
    have hs : s = [] := List.length_eq_zero.mp (Nat.le_zero.mp hk)
    subst hs
    rw [sub2F_nil, sub2F_nil]
  | succ k ih =>
    intro s n m hk hn hm
    cases s with
    | nil => rw [sub2F_nil, sub2F_nil]
    | cons c0 cs =>
      obtain ⟨n', rfl⟩ : ∃ n', n = n' + 1 :=
        ⟨n - 1, by simp only [List.length_cons] at hn; omega⟩
      obtain ⟨m', rfl⟩ : ∃ m', m = m' + 1 :=
        ⟨m - 1, by simp only [List.length_cons] at hm; omega⟩
      cases hm1 : matchR2 (c0 :: cs) with
      | some val =>
        obtain ⟨c, rest⟩ := val
        rw [sub2F_cons_some hm1, sub2F_cons_some hm1]
        have hr := matchR2_length hm1
        simp only [List.length_cons] at hr hk hn hm
        exact congrArg (fun t => anchorM c ++ (ins ++ t))
          (ih rest n' m' (by omega) (by omega) (by omega))
      | none =>
        rw [sub2F_cons_none hm1, sub2F_cons_none hm1]
        simp only [List.length_cons] at hk hn hm
        exact congrArg (c0 :: ·) (ih cs n' m' (by omega) (by omega) (by omega))

theorem sub2_nil : sub2 [] = [] := rfl

theorem sub2_cons_some {c0 c : Char} {cs rest : List Char}
    (h : matchR2 (c0 :: cs) = some (c, rest)) :
    sub2 (c0 :: cs) = anchorM c ++ (ins ++ sub2 rest) := by
  unfold sub2
  rw [List.length_cons, sub2F_cons_some h]
  have hr := matchR2_length h
  simp only [List.length_cons] at hr
  exact congrArg (fun t => anchorM c ++ (ins ++ t))
    (sub2F_congr cs.length rest cs.length rest.length (by omega) (by omega) le_rfl)

theorem sub2_cons_none {c0 : Char} {cs : List Char} (h : matchR2 (c0 :: cs) = none) :
    sub2 (c0 :: cs) = c0 :: sub2 cs := by
  unfold sub2
  rw [List.length_cons, sub2F_cons_none h]

/-- No step-3 anchor match starts at any position of `s`. -/
def clean2 (s : List Char) : Prop := ∀ i, matchR2 (s.drop i) = none

theorem clean2_nil : clean2 [] := by
  intro i; rw [List.drop_nil]; rfl

theorem clean2_cons {c : Char} {cs : List Char} (h : clean2 (c :: cs)) : clean2 cs := by
  intro i
  have h1 := h (i + 1)
  rwa [List.drop_succ_cons] at h1

theorem clean2_of_cons {c : Char} {cs : List Char} (h0 : matchR2 (c :: cs) = none)
    (h : clean2 cs) : clean2 (c :: cs) := by
  intro i
  cases i with
  | zero => exact h0
  | succ i => rw [List.drop_succ_cons]; exact h i

/-- Step 3's substitution is the identity on anchor-free text. -/
theorem sub2_id {s : List Char} (h : clean2 s) : sub2 s = s := by
  induction s with
  | nil => rfl
  | cons c cs ih =>
    rw [sub2_cons_none (h 0), ih (clean2_cons h)]

/-- Structure of the step-3 substitution output: either no anchor matches
anywhere and the text is unchanged, or the text splits at an anchor match,
after which the output inserts the import line. -/
theorem sub2_struct : ∀ s : List Char, (sub2 s = s ∧ clean2 s) ∨
    ∃ p c r Y, s = p ++ (anchorM c ++ r) ∧ sub2 s = p ++ (anchorM c ++ (ins ++ Y)) := by
  intro s
  induction s with
  | nil => exact Or.inl ⟨rfl, clean2_nil⟩
  | cons c0 cs ih =>
    cases hm : matchR2 (c0 :: cs) with
    | some val =>
      obtain ⟨c, rest⟩ := val
      obtain ⟨-, he⟩ := matchR2_eq_some.mp hm
      exact Or.inr ⟨[], c, rest, sub2 rest, by simpa using he,
        by simpa using sub2_cons_some hm⟩
    | none =>
      rcases ih with ⟨hid, hcl⟩ | ⟨p, c, r, Y, he, ho⟩
      · exact Or.inl ⟨by rw [sub2_cons_none hm, hid], clean2_of_cons hm hcl⟩
      · exact Or.inr ⟨c0 :: p, c, r, Y, by rw [he]; rfl,
          by rw [sub2_cons_none hm, ho]; rfl⟩

/-- No step-2 match starts inside the inserted import line, whatever
follows. -/
theorem ins_drop_none : ∀ (j : Nat) (Y : List Char), j < 44 →
    matchR1 (ins.drop j ++ Y) = none := by
  intro j Y hj
  interval_cases j <;> rfl

/-- A step-2 match that starts in front of an inserted import line can never
reach into it: one to three characters in, it would have to end in a
whitespace character, and four or more characters in, it would contain an `i`
preceded by a space. -/
theorem noMatch1_into_ins {w Y m' r' : List Char} (he : w ++ (ins ++ Y) = m' ++ r')
    (hm : MatchStr m') (hl : w.length < m'.length) : False := by
  by_cases he3 : m'.length ≤ w.length + 3
  · obtain ⟨u, hu⟩ := MatchStr_last hm
    have hmu : m'.length = u.length + 1 := by rw [hu]; simp
    have hget1 : (m' ++ r').getD (m'.length - 1) 'x' = 'a' := by
      rw [hu, List.append_assoc]
      have h0 : (u ++ ['a']).length - 1 = u.length + 0 := by simp
      rw [h0, getD_app]
      rfl
    have hism : m'.length - 1 = w.length + (m'.length - 1 - w.length) := by omega
    have hco : (ins ++ Y).getD (m'.length - 1 - w.length) 'x' = 'a' := by
      have h5 := getD_app w (ins ++ Y) (m'.length - 1 - w.length) 'x'
      rw [← hism] at h5
      rw [← h5, he]
      exact hget1
    obtain ⟨j, hjeq⟩ : ∃ j, m'.length - 1 - w.length = j := ⟨_, rfl⟩
    rw [hjeq] at hco
    have hjle : j ≤ 2 := by omega
    interval_cases j
    · rw [show (ins ++ Y).getD 0 'x' = '\n' from rfl] at hco
      exact absurd hco (by decide)
    · rw [show (ins ++ Y).getD 1 'x' = ' ' from rfl] at hco
      exact absurd hco (by decide)
    · rw [show (ins ++ Y).getD 2 'x' = ' ' from rfl] at hco
      exact absurd hco (by decide)
  · have he4 : (w ++ ['\n', ' ']) ++ ' ' :: 'i' ::
        ("mport { supabase } from '$lib/supabase';".toList ++ Y) = m' ++ r' := by
      rw [← he, List.append_assoc]
      rfl
    obtain ⟨u, v, huv⟩ := window2 (w ++ ['\n', ' ']) _ m' r' ' ' 'i' he4
      (by simp only [List.length_append, List.length_cons, List.length_nil]; omega)
    exact absurd (MatchStr_adj hm huv) (by decide)

/-- The step-3 substitution preserves freedom from step-2 matches: the
insertion of import lines after anchor matches never creates a
binding-narrowing match. -/
theorem cross_clean : ∀ (k : Nat) (s : List Char), s.length ≤ k → clean1 s →
    clean1 (sub2 s) := by
  intro k
  induction k with
  | zero =>
    intro s hk _
    have hs : s = [] := List.length_eq_zero.mp (Nat.le_zero.mp hk)
    subst hs
    exact clean1_nil
  | succ k ih =>
    intro s hk hc
    cases s with
    | nil => exact clean1_nil
    | cons c0 cs =>
      cases hm : matchR2 (c0 :: cs) with
      | some val =>
        obtain ⟨c, rest⟩ := val
        rw [sub2_cons_some hm]
        obtain ⟨-, hdec⟩ := matchR2_eq_some.mp hm
        have hrest : clean1 rest := by
          intro i
          have h1 := hc (41 + i)
          rw [hdec, show (41 : Nat) + i = (anchorM c).length + i from by
            rw [anchorM_length], drop_app_add] at h1
          exact h1
        have ihrest : clean1 (sub2 rest) := by
          have hr := matchR2_length hm
          simp only [List.length_cons] at hr hk
          exact ih rest (by omega) hrest
        intro i
        by_cases hi : i < 41
        · rw [drop_app_le (anchorM c) _ i (by rw [anchorM_length]; omega)]
          by_cases hne : matchR1 ((anchorM c).drop i ++ (ins ++ sub2 rest)) = none
          · exact hne
          exfalso
          obtain ⟨r', hr'⟩ : ∃ r',
              matchR1 ((anchorM c).drop i ++ (ins ++ sub2 rest)) = some r' := by
            cases hx : matchR1 ((anchorM c).drop i ++ (ins ++ sub2 rest)) with
            | none => exact absurd hx hne
            | some v => exact ⟨v, rfl⟩
          obtain ⟨m', hm', he'⟩ := matchR1_eq_some.mp hr'
          by_cases hlen : m'.length ≤ ((anchorM c).drop i).length
          · obtain ⟨q, hq1, hq2⟩ := takeSplit m' _ _ r' he' hlen
            have hfull : (c0 :: cs).drop i = m' ++ (q ++ rest) := by
              rw [hdec, drop_app_le (anchorM c) rest i (by rw [anchorM_length]; omega),
                hq1, List.append_assoc]
            have hcontra := matchR1_eq_some.mpr ⟨m', hm', hfull⟩
            rw [hc i] at hcontra
            exact Option.noConfusion hcontra
          · push_neg at hlen
            exact noMatch1_into_ins he' hm' hlen
        · by_cases hi2 : i < 85
          · have hieq : i = (anchorM c).length + (i - 41) := by rw [anchorM_length]; omega
            rw [hieq, drop_app_add,
              drop_app_le ins (sub2 rest) (i - 41) (by rw [show ins.length = 44 from rfl]; omega)]
            exact ins_drop_none (i - 41) _ (by omega)
          · have hieq : i = (anchorM c).length + (44 + (i - 85)) := by rw [anchorM_length]; omega
            rw [hieq, drop_app_add,
              show (44 : Nat) + (i - 85) = ins.length + (i - 85) from by rw [show ins.length = 44 from rfl],
              drop_app_add]
            exact ihrest (i - 85)
      | none =>
        rw [sub2_cons_none hm]
        have ihc : clean1 (sub2 cs) :=
          ih cs (by simp only [List.length_cons] at hk; omega) (clean1_cons hc)
        refine clean1_of_cons ?_ ihc
        by_cases hne : matchR1 (c0 :: sub2 cs) = none
        · exact hne
        exfalso
        obtain ⟨r', hr'⟩ : ∃ r', matchR1 (c0 :: sub2 cs) = some r' := by
          cases hx : matchR1 (c0 :: sub2 cs) with
          | none => exact absurd hx hne
          | some v => exact ⟨v, rfl⟩
        obtain ⟨m', hm', he'⟩ := matchR1_eq_some.mp hr'
        rcases sub2_struct cs with ⟨hid, -⟩ | ⟨p, c, r, Y, hcs, hout⟩
        · rw [hid] at he'
          have hcontra := matchR1_eq_some.mpr ⟨m', hm', he'⟩
          have hc0 : matchR1 (c0 :: cs) = none := hc 0
          rw [hc0] at hcontra
          exact Option.noConfusion hcontra
        · rw [hout] at he'
          have he2 : ((c0 :: p) ++ anchorM c) ++ (ins ++ Y) = m' ++ r' := by
            rw [← he', List.append_assoc]
            rfl
          by_cases hlen : m'.length ≤ ((c0 :: p) ++ anchorM c).length
          · obtain ⟨q, hq1, hq2⟩ := takeSplit m' _ _ r' he2 hlen
            have hfull : c0 :: cs = m' ++ (q ++ r) := by
              rw [hcs, show c0 :: (p ++ (anchorM c ++ r)) = ((c0 :: p) ++ anchorM c) ++ r from by
                rw [List.append_assoc]; rfl, hq1, List.append_assoc]
            have hcontra := matchR1_eq_some.mpr ⟨m', hm', hfull⟩
            have hc0 : matchR1 (c0 :: cs) = none := hc 0
            rw [hc0] at hcontra
            exact Option.noConfusion hcontra
          · push_neg at hlen
            exact noMatch1_into_ins he2 hm' hlen

/-- Substring occurrence test, the embedding of Python's `in` operator on
strings: scan every suffix for the literal prefix. -/
def hasSubB (p : List Char) : List Char → Bool
  | [] => (stripPfx p []).isSome
  | c :: cs => (stripPfx p (c :: cs)).isSome || hasSubB p cs

/-- Count of positions at which the literal occurs (occurrences at distinct
start positions, possibly overlapping). -/
def countSubB (p : List Char) : List Char → Nat
  | [] => if (stripPfx p []).isSome then 1 else 0
  | c :: cs => (if (stripPfx p (c :: cs)).isSome then 1 else 0) + countSubB p cs

/-- Does the step-2 pattern match anywhere in the text? -/
def hasMatch1B : List Char → Bool
  | [] => (matchR1 []).isSome
  | c :: cs => (matchR1 (c :: cs)).isSome || hasMatch1B cs

/-- Does the step-3 anchor pattern match anywhere in the text? -/
def hasMatch2B : List Char → Bool
  | [] => (matchR2 []).isSome
  | c :: cs => (matchR2 (c :: cs)).isSome || hasMatch2B cs

theorem hasMatch1B_eq_false_iff {s : List Char} : hasMatch1B s = false ↔ clean1 s := by
  induction s with
  | nil => exact ⟨fun _ => clean1_nil, fun _ => rfl⟩
  | cons c cs ih =>
    rw [show hasMatch1B (c :: cs) = ((matchR1 (c :: cs)).isSome || hasMatch1B cs) from rfl,
      Bool.or_eq_false_iff]
    constructor
    · rintro ⟨h1, h2⟩
      refine clean1_of_cons ?_ (ih.mp h2)
      cases hx : matchR1 (c :: cs) with
      | none => rfl
      | some v => rw [hx] at h1; exact Bool.noConfusion h1
    · intro h
      have h0 : matchR1 (c :: cs) = none := h 0
      exact ⟨by rw [h0]; rfl, ih.mpr (clean1_cons h)⟩

theorem hasMatch2B_eq_false_iff {s : List Char} : hasMatch2B s = false ↔ clean2 s := by
  induction s with
  | nil => exact ⟨fun _ => clean2_nil, fun _ => rfl⟩
  | cons c cs ih =>
    rw [show hasMatch2B (c :: cs) = ((matchR2 (c :: cs)).isSome || hasMatch2B cs) from rfl,
      Bool.or_eq_false_iff]
    constructor
    · rintro ⟨h1, h2⟩
      refine clean2_of_cons ?_ (ih.mp h2)
      cases hx : matchR2 (c :: cs) with
      | none => rfl
      | some v => rw [hx] at h1; exact Bool.noConfusion h1
    · intro h
      have h0 : matchR2 (c :: cs) = none := h 0
      exact ⟨by rw [h0]; rfl, ih.mpr (clean2_cons h)⟩

theorem hasSubB_startsWith {p t : List Char} (h : (stripPfx p t).isSome = true) :
    hasSubB p t = true := by
  cases t with
  | nil => exact h
  | cons c cs =>
    rw [show hasSubB p (c :: cs) = ((stripPfx p (c :: cs)).isSome || hasSubB p cs) from rfl,
      Bool.or_eq_true]
    exact Or.inl h

/-- A text that visibly contains the literal passes the substring test. -/
theorem hasSubB_append (p u v : List Char) : hasSubB p (u ++ (p ++ v)) = true := by
  induction u with
  | nil =>
    rw [List.nil_append]
    exact hasSubB_startsWith (by rw [stripPfx_append]; rfl)
  | cons x u ih =>
    rw [List.cons_append,
      show hasSubB p (x :: (u ++ (p ++ v))) =
        ((stripPfx p (x :: (u ++ (p ++ v)))).isSome || hasSubB p (u ++ (p ++ v))) from rfl,
      Bool.or_eq_true]
    exact Or.inr ih

/-- Step 3 of the script (source lines 21 to 27): substitute only when
neither import marker occurs in the content. -/
def step3 (s : List Char) : List Char :=
  if !hasSubB marker1 s && !hasSubB marker2 s then sub2 s else s

/-- The per-file content transformation: step 2 then step 3. -/
def pipeline (s : List Char) : List Char := step3 (sub1 s)

theorem step3_of_marker {s : List Char}
    (h : hasSubB marker1 s = true ∨ hasSubB marker2 s = true) : step3 s = s := by
  unfold step3
  rcases h with h | h <;> rw [h] <;> simp

theorem step3_of_nomarker {s : List Char} (h1 : hasSubB marker1 s = false)
    (h2 : hasSubB marker2 s = false) : step3 s = sub2 s := by
  unfold step3
  rw [h1, h2]
  simp

/-- The inserted text splits around the first import marker. -/
theorem ins_decomp :
    ins = "\n  ".toList ++ (marker1 ++ " from '$lib/supabase';".toList) := rfl

/-- After an insertion the content contains the first import marker. -/
theorem marker1_in_sub2_inserted {p : List Char} {c : Char} {Y : List Char} {s : List Char}
    (h : sub2 s = p ++ (anchorM c ++ (ins ++ Y))) : hasSubB marker1 (sub2 s) = true := by
  rw [h, ins_decomp]
  have hshape : p ++ (anchorM c ++ (("\n  ".toList ++ (marker1 ++ " from '$lib/supabase';".toList)) ++ Y))
      = (p ++ (anchorM c ++ "\n  ".toList)) ++ (marker1 ++ (" from '$lib/supabase';".toList ++ Y)) := by
    simp [List.append_assoc]
  rw [hshape]
  exact hasSubB_append marker1 _ _

/-- Replacement of a unique anchor match: when the anchor pattern matches at
position `|a|` and nowhere earlier, and the remainder after the match is
anchor-free, the substitution inserts the import line right after the match
and changes nothing else. -/
theorem sub2_unique : ∀ (a t : List Char) (c : Char) (r : List Char),
    matchR2 t = some (c, r) →
    (∀ i, i < a.length → matchR2 ((a ++ t).drop i) = none) →
    clean2 r →
    sub2 (a ++ t) = a ++ (anchorM c ++ (ins ++ r)) := by
  intro a
  induction a with
  | nil =>
    intro t c r hm hpre hr
    rw [List.nil_append, List.nil_append]
    cases t with
    | nil => rw [matchR2_nil] at hm; exact Option.noConfusion hm
    | cons c0 cs => rw [sub2_cons_some hm, sub2_id hr]
  | cons x a ih =>
    intro t c r hm hpre hr
    have h0 : matchR2 (x :: (a ++ t)) = none :=
      hpre 0 (by simp only [List.length_cons]; omega)
    have hpre' : ∀ i, i < a.length → matchR2 ((a ++ t).drop i) = none := by
      intro i hi
      have h3 : matchR2 ((x :: (a ++ t)).drop (i + 1)) = none :=
        hpre (i + 1) (by simp only [List.length_cons]; omega)
      rwa [List.drop_succ_cons] at h3
    show sub2 (x :: (a ++ t)) = x :: (a ++ (anchorM c ++ (ins ++ r)))
    rw [sub2_cons_none h0, ih t c r hm hpre' hr]

/-- Claim C6: the per-file transformation pipeline (step 2 followed by
step 3) is idempotent: for every input text, applying the pipeline twice
yields the same output text as applying it once.  The step-2 output has no
step-2 match left, the step-3 insertion cannot create a step-2 match, and
after an insertion the first import marker is present so step 3 refuses to
insert again. -/
theorem c6_pipeline_idempotent (s : List Char) : pipeline (pipeline s) = pipeline s := by
  have hcl : clean1 (sub1 s) := sub1_clean s.length s le_rfl
  by_cases hmk : hasSubB marker1 (sub1 s) = true ∨ hasSubB marker2 (sub1 s) = true
  · have hst := step3_of_marker hmk
    show step3 (sub1 (step3 (sub1 s))) = step3 (sub1 s)
    rw [hst, sub1_id hcl, hst]
  · push_neg at hmk
    obtain ⟨h1, h2⟩ := hmk
    replace h1 : hasSubB marker1 (sub1 s) = false := by simpa using h1
    replace h2 : hasSubB marker2 (sub1 s) = false := by simpa using h2
    have hst := step3_of_nomarker h1 h2
    show step3 (sub1 (step3 (sub1 s))) = step3 (sub1 s)
    rw [hst]
    rcases sub2_struct (sub1 s) with ⟨hid, -⟩ | ⟨p, c, r, Y, he, ho⟩
    · rw [hid, sub1_id hcl, step3_of_nomarker h1 h2, hid]
    · have hclY : clean1 (sub2 (sub1 s)) :=
        cross_clean (sub1 s).length (sub1 s) le_rfl hcl
      have hmk1 : hasSubB marker1 (sub2 (sub1 s)) = true := marker1_in_sub2_inserted ho
      rw [sub1_id hclY]
      exact step3_of_marker (Or.inl hmk1)

/-- Observable events of a run of the script. -/
inductive Ev : Type
  | readOk (p : String)
  | readErr (p : String)
  | writeEv (p : String) (content : List Char)
  | writeErr (p : String)
  | printEv (msg : String)
deriving DecidableEq

/-- Model of the reachable filesystem: per path an optional readable content
(`none` models any `IOError` on open or read: missing file, permission,
decoding), plus per-path writability (`false` models an `IOError` on the
write-back). -/
structure FS where
  files : String → Option (List Char)
  writeOk : String → Bool

/-- The hardcoded target list of source lines 5 to 10. -/
def files_to_fix : List String :=
  ["/Users/sheldonzhao/programs/FlowReader/apps/web/src/routes/notes/search/+page.svelte",
   "/Users/sheldonzhao/programs/FlowReader/apps/web/src/routes/library/+page.svelte",
   "/Users/sheldonzhao/programs/FlowReader/apps/web/src/routes/read/[bookId]/+page.svelte",
   "/Users/sheldonzhao/programs/FlowReader/apps/web/src/routes/read/[bookId]/notes/+page.svelte"]

/-- Success message of source line 32. -/
def okMsg (p : String) : String := "Fixed: " ++ p

/-- Error message of source line 34; the rendering of the caught exception
after the path is abstracted away. -/
def errMsg (p : String) : String := "Error fixing " ++ p

/-- One iteration of the `for` loop (source lines 12 to 34): read, transform,
write, report; every failure is caught at the per-file boundary and turned
into an error print, leaving the filesystem unchanged for that file. -/
def processFile (fs : FS) (p : String) : FS × List Ev :=
  match fs.files p with
  | none => (fs, [Ev.readErr p, Ev.printEv (errMsg p)])
  | some content =>
    let c2 := pipeline content
    if fs.writeOk p then
      ({ files := fun q => if q = p then some c2 else fs.files q, writeOk := fs.writeOk },
       [Ev.readOk p, Ev.writeEv p c2, Ev.printEv (okMsg p)])
    else
      (fs, [Ev.readOk p, Ev.writeErr p, Ev.printEv (errMsg p)])

/-- The loop over the target list; events accumulate in order. -/
def runFiles : FS → List String → FS × List Ev
  | fs, [] => (fs, [])
  | fs, p :: ps =>
    (runFiles (processFile fs p).1 ps |>.1,
     (processFile fs p).2 ++ (runFiles (processFile fs p).1 ps).2)

/-- The whole script: process every target, print the completion message of
source line 36, and exit; the exit status is 0 because each per-file
exception is caught inside the loop and never escapes. -/
def script (fs : FS) : FS × List Ev × Nat :=
  ((runFiles fs files_to_fix).1,
   (runFiles fs files_to_fix).2 ++ [Ev.printEv "All files fixed!"], 0)

/-- Occurrence count of an event in an event list. -/
def countEv (e : Ev) : List Ev → Nat
  | [] => 0
  | x :: xs => (if x = e then 1 else 0) + countEv e xs

theorem countEv_append (e : Ev) (l1 l2 : List Ev) :
    countEv e (l1 ++ l2) = countEv e l1 + countEv e l2 := by
  induction l1 with
  | nil => simp [countEv]
  | cons x xs ih =>
    rw [List.cons_append,
      show countEv e (x :: (xs ++ l2)) = (if x = e then 1 else 0) + countEv e (xs ++ l2) from rfl,
      show countEv e (x :: xs) = (if x = e then 1 else 0) + countEv e xs from rfl, ih]
    omega

/-- Every processed file produces either its success print or its error
print. -/
theorem processFile_status (fs : FS) (p : String) :
    Ev.printEv (okMsg p) ∈ (processFile fs p).2 ∨
    Ev.printEv (errMsg p) ∈ (processFile fs p).2 := by
  unfold processFile
  cases fs.files p with
  | none => right; simp
  | some content =>
    by_cases hw : fs.writeOk p
    · left; simp [hw]
    · right; simp [hw]

/-- A per-file iteration never prints the completion message. -/
theorem processFile_no_final (fs : FS) (p : String)
    (h1 : okMsg p ≠ "All files fixed!") (h2 : errMsg p ≠ "All files fixed!") :
    countEv (Ev.printEv "All files fixed!") (processFile fs p).2 = 0 := by
  unfold processFile
  cases fs.files p with
  | none => simp [countEv, h2]
  | some content =>
    by_cases hw : fs.writeOk p
    · simp [hw, countEv, h1]
    · simp [hw, countEv, h2]

theorem runFiles_cons (fs : FS) (p : String) (ps : List String) :
    runFiles fs (p :: ps) =
    ((runFiles (processFile fs p).1 ps).1,
     (processFile fs p).2 ++ (runFiles (processFile fs p).1 ps).2) := rfl

/-- Every file of the list gets its status print, whatever happened to the
files before it: failures do not abort the batch. -/
theorem runFiles_status : ∀ (ps : List String) (fs : FS) (p : String), p ∈ ps →
    Ev.printEv (okMsg p) ∈ (runFiles fs ps).2 ∨
    Ev.printEv (errMsg p) ∈ (runFiles fs ps).2 := by
  intro ps
  induction ps with
  | nil => intro fs p h; exact absurd h (List.not_mem_nil p)
  | cons q ps ih =>
    intro fs p h
    rw [runFiles_cons]
    rcases List.mem_cons.mp h with rfl | h
    · rcases processFile_status fs p with h1 | h1
      · exact Or.inl (List.mem_append_left _ h1)
      · exact Or.inr (List.mem_append_left _ h1)
    · rcases ih (processFile fs q).1 p h with h1 | h1
      · exact Or.inl (List.mem_append_right _ h1)
      · exact Or.inr (List.mem_append_right _ h1)

/-- The loop itself never prints the completion message. -/
theorem runFiles_no_final : ∀ (ps : List String) (fs : FS),
    (∀ p ∈ ps, okMsg p ≠ "All files fixed!" ∧ errMsg p ≠ "All files fixed!") →
    countEv (Ev.printEv "All files fixed!") (runFiles fs ps).2 = 0 := by
  intro ps
  induction ps with
  | nil => intro fs _; rfl
  | cons q ps ih =>
    intro fs h
    rw [runFiles_cons, countEv_append,
      processFile_no_final fs q (h q (List.mem_cons_self q ps)).1 (h q (List.mem_cons_self q ps)).2,
      ih (processFile fs q).1 (fun p hp => h p (List.mem_cons_of_mem q hp))]

/-- Modelled from the spec's words (section 4.1, step 2: a destructure match
"in a form tolerant of arbitrary whitespace between tokens"): a two-name
destructure matcher that allows a whitespace run in every gap between
adjacent tokens, including between `supabase` and the comma.  Declared only
to compare the spec's described tolerance with the code's pattern, whose
`\s*` gaps do not cover the position before the comma. -/
def matchSpecTwoName (s : List Char) : Option (List Char) :=
  (stripPfx ['{'] s).bind fun s1 =>
  (stripPfx "supabase".toList (skipWs s1)).bind fun s2 =>
  (stripPfx [','] (skipWs s2)).bind fun s3 =>
  (stripPfx litSess (skipWs s3)).bind fun s4 =>
  (stripPfx ['}'] (skipWs s4)).bind fun s5 =>
  (stripPfx ['='] (skipWs s5)).bind fun s6 =>
  stripPfx litData (skipWs s6)

/-- Does the spec-worded two-name pattern match anywhere in the text? -/
def hasSpecTwoNameB : List Char → Bool
  | [] => (matchSpecTwoName []).isSome
  | c :: cs => (matchSpecTwoName (c :: cs)).isSome || hasSpecTwoNameB cs

/-- The literal anchor line quoted by the spec, with the dot position holding
an actual dot. -/
def anchorLit : List Char := anchorM '.'

/-- The full import line that step 3 inserts. -/
def importLine : List Char := "import { supabase } from '$lib/supabase';".toList

def cex1 : List Char := "const { supabase , session } = data;".toList

def wit1 : List Char := "const \x7b supabase,\n  session \x7d = data;".toList

def cex2 : List Char := anchorLit ++ ('\n' :: anchorLit)

def wit2a : List Char := "x\n".toList

def wit2t : List Char := anchorLit ++ ('\n' :: "end".toList)

def cex5 : List Char := anchorM 'x'

def wit5 : List Char := "hello world".toList

def wit4 : List Char := anchorLit ++ ('\n' :: importLine)

def wit7 : List Char := "const { session } = data;".toList

/-- Filesystem on which every read fails. -/
def fsEmpty : FS := ⟨fun _ => none, fun _ => true⟩

/-- Claim C1 counterexample: the text `const { supabase , session } = data;`
contains the two-name destructure with whitespace between the tokens
(`supabase`, space, comma), yet step 2 leaves it unchanged: the output does
not contain the one-name form `{ session } = data` and still contains the
two-name destructure, because the code's pattern admits no whitespace
between `supabase` and the comma. -/
theorem c1_counterexample :
    hasSpecTwoNameB cex1 = true ∧ sub1 cex1 = cex1 ∧
    hasSubB repl (sub1 cex1) = false ∧ hasSpecTwoNameB (sub1 cex1) = true :=
  ⟨rfl, rfl, rfl, rfl⟩

/-- Claim C1 (amended): for every input text containing a match of the code's
two-name destructure pattern — whitespace runs allowed after the opening
brace, after the comma, after `session`, after the closing brace and around
the equals sign, but none between `supabase` and the comma — step 2 replaces
every match, so the output contains the one-name form `{ session } = data`
and no longer contains any match of the two-name pattern. -/
theorem c1_replaces_all {s : List Char} (h : hasMatch1B s = true) :
    hasSubB repl (sub1 s) = true ∧ hasMatch1B (sub1 s) = false := by
  constructor
  · rcases sub1_struct s with ⟨-, hcl⟩ | ⟨p, m, r, Y, -, -, ho⟩
    · rw [hasMatch1B_eq_false_iff.mpr hcl] at h
      exact Bool.noConfusion h
    · rw [ho]
      exact hasSubB_append repl p Y
  · exact hasMatch1B_eq_false_iff.mpr (sub1_clean s.length s le_rfl)

theorem c1_witness :
    hasMatch1B wit1 = true ∧
    (hasSubB repl (sub1 wit1) = true ∧ hasMatch1B (sub1 wit1) = false) :=
  ⟨rfl, c1_replaces_all rfl⟩

set_option maxRecDepth 8192 in
/-- Claim C2 counterexample: a text made of two copies of the anchor line,
missing both import markers, gets the import line inserted after each of
them: the output contains two new import lines, not exactly one. -/
theorem c2_counterexample :
    hasSubB marker1 cex2 = false ∧ hasSubB marker2 cex2 = false ∧
    hasSubB anchorLit cex2 = true ∧
    countSubB importLine cex2 = 0 ∧
    countSubB importLine (step3 cex2) = 2 :=
  ⟨rfl, rfl, rfl, rfl, rfl⟩

/-- Claim C2 (amended): for every input text missing both import markers in
which the anchor pattern matches at exactly one position, step 3 inserts the
new import line immediately after that anchor match and changes nothing
else; in general one import line is inserted after every anchor match. -/
theorem c2_single_insertion {a t : List Char} {c : Char} {r : List Char}
    (hmk1 : hasSubB marker1 (a ++ t) = false) (hmk2 : hasSubB marker2 (a ++ t) = false)
    (hm : matchR2 t = some (c, r))
    (hpre : ∀ i, i < a.length → matchR2 ((a ++ t).drop i) = none)
    (hr : hasMatch2B r = false) :
    step3 (a ++ t) = a ++ (anchorM c ++ (ins ++ r)) := by
  rw [step3_of_nomarker hmk1 hmk2]
  exact sub2_unique a t c r hm hpre (hasMatch2B_eq_false_iff.mp hr)

theorem c2_witness :
    hasSubB marker1 (wit2a ++ wit2t) = false ∧ hasSubB marker2 (wit2a ++ wit2t) = false ∧
    matchR2 wit2t = some ('.', '\n' :: "end".toList) ∧
    (∀ i, i < wit2a.length → matchR2 ((wit2a ++ wit2t).drop i) = none) ∧
    hasMatch2B ('\n' :: "end".toList) = false ∧
    step3 (wit2a ++ wit2t) = wit2a ++ (anchorM '.' ++ (ins ++ ('\n' :: "end".toList))) :=
  ⟨rfl, rfl, rfl, by decide, rfl,
   c2_single_insertion rfl rfl rfl (by decide) rfl⟩

/-- Claim C3: every error raised while processing one file is caught at the
per-file boundary and turned into a printed diagnostic, processing of the
remaining files continues, the single final completion message is emitted
last, and the process exits with status 0. -/
theorem c3_batch_completes (fs : FS) :
    (script fs).2.2 = 0 ∧
    (∃ pre, (script fs).2.1 = pre ++ [Ev.printEv "All files fixed!"] ∧
      countEv (Ev.printEv "All files fixed!") pre = 0) ∧
    ∀ p, p ∈ files_to_fix →
      Ev.printEv (okMsg p) ∈ (script fs).2.1 ∨ Ev.printEv (errMsg p) ∈ (script fs).2.1 := by
  refine ⟨rfl, ⟨(runFiles fs files_to_fix).2, rfl, ?_⟩, ?_⟩
  · exact runFiles_no_final files_to_fix fs (by decide)
  · intro p hp
    rcases runFiles_status files_to_fix fs p hp with h | h
    · exact Or.inl (List.mem_append_left _ h)
    · exact Or.inr (List.mem_append_left _ h)

theorem c3_witness :
    "/Users/sheldonzhao/programs/FlowReader/apps/web/src/routes/library/+page.svelte"
      ∈ files_to_fix ∧
    (Ev.printEv (okMsg "/Users/sheldonzhao/programs/FlowReader/apps/web/src/routes/library/+page.svelte")
        ∈ (script fsEmpty).2.1 ∨
     Ev.printEv (errMsg "/Users/sheldonzhao/programs/FlowReader/apps/web/src/routes/library/+page.svelte")
        ∈ (script fsEmpty).2.1) :=
  ⟨by decide, (c3_batch_completes fsEmpty).2.2 _ (by decide)⟩

/-- Claim C4: for every input text already containing at least one of the
two import markers, step 3 performs no insertion and leaves the text
unchanged, even when the anchor line is present. -/
theorem c4_marker_skips {s : List Char}
    (h : hasSubB marker1 s = true ∨ hasSubB marker2 s = true) : step3 s = s :=
  step3_of_marker h

theorem c4_witness :
    (hasSubB marker1 wit4 = true ∨ hasSubB marker2 wit4 = true) ∧
    hasSubB anchorLit wit4 = true ∧ step3 wit4 = wit4 :=
  ⟨Or.inl rfl, rfl, c4_marker_skips (Or.inl rfl)⟩

/-- Claim C5 counterexample: the text `import type { PageData } from
'x/$types';` is missing both import markers and does not contain the literal
anchor line (whose wildcard position holds a dot), yet step 3 still inserts
the import line, because the unescaped regex dot matches the `x`. -/
theorem c5_counterexample :
    hasSubB marker1 cex5 = false ∧ hasSubB marker2 cex5 = false ∧
    hasSubB anchorLit cex5 = false ∧ step3 cex5 ≠ cex5 :=
  ⟨rfl, rfl, rfl, by decide⟩

/-- Claim C5 (amended): for every input text missing both import markers and
containing no match of the anchor pattern (the anchor line with any single
non-newline character in the wildcard position), step 3 leaves the text
unchanged; the embedding is a total function, so no error is raised. -/
theorem c5_silent_noop {s : List Char} (h1 : hasSubB marker1 s = false)
    (h2 : hasSubB marker2 s = false) (h : hasMatch2B s = false) : step3 s = s := by
  rw [step3_of_nomarker h1 h2]
  exact sub2_id (hasMatch2B_eq_false_iff.mp h)

theorem c5_witness :
    hasSubB marker1 wit5 = false ∧ hasSubB marker2 wit5 = false ∧
    hasMatch2B wit5 = false ∧ step3 wit5 = wit5 :=
  ⟨rfl, rfl, rfl, c5_silent_noop rfl rfl rfl⟩

/-- Claim C7: for every input text with no match of the two-name destructure
pattern, step 2 is the identity: its output is byte-identical to its input,
so single-name destructures and unrelated bindings are not altered. -/
theorem c7_step2_noop {s : List Char} (h : hasMatch1B s = false) : sub1 s = s :=
  sub1_id (hasMatch1B_eq_false_iff.mp h)

theorem c7_witness : hasMatch1B wit7 = false ∧ sub1 wit7 = wit7 :=
  ⟨rfl, c7_step2_noop rfl⟩

/-- Claim C8: the write step never executes unless the read step for that
file succeeded; on a read failure the file's on-disk content — indeed the
whole filesystem — is left unchanged and no write event occurs. -/
theorem c8_read_fail_no_write (fs : FS) (p : String) (h : fs.files p = none) :
    (processFile fs p).1 = fs ∧
    ∀ content, Ev.writeEv p content ∉ (processFile fs p).2 := by
  unfold processFile
  rw [h]
  refine ⟨rfl, ?_⟩
  intro content hmem
  simp at hmem

theorem c8_witness :
    fsEmpty.files "a" = none ∧
    ((processFile fsEmpty "a").1 = fsEmpty ∧
      ∀ content, Ev.writeEv "a" content ∉ (processFile fsEmpty "a").2) :=
  ⟨rfl, c8_read_fail_no_write fsEmpty "a" rfl⟩

/-- Claim C9: the anchor-line match of step 3 is not restricted to the exact
specifier with a dot: for any single non-newline character in that position,
an input made of that anchor-variant line, when it is missing both import
markers, still gets the import line inserted right after it. -/
theorem c9_wildcard_insert {c : Char} (hnl : c ≠ '\n')
    (h1 : hasSubB marker1 (anchorM c) = false) (h2 : hasSubB marker2 (anchorM c) = false) :
    step3 (anchorM c) = anchorM c ++ ins := by
  rw [step3_of_nomarker h1 h2]
  have hm : matchR2 (anchorM c) = some (c, []) :=
    matchR2_eq_some.mpr ⟨hnl, by simp⟩
  have h := sub2_unique [] (anchorM c) c [] hm
    (by intro i hi; simp at hi) clean2_nil
  simpa using h

theorem c9_witness :
    ('a' ≠ '\n') ∧ hasSubB marker1 (anchorM 'a') = false ∧
    hasSubB marker2 (anchorM 'a') = false ∧
    step3 (anchorM 'a') = anchorM 'a' ++ ins :=
  ⟨by decide, rfl, rfl, c9_wildcard_insert (by decide) rfl rfl⟩

/-- Claim C10: every matched two-name destructure occurrence, whatever its
internal spacing, is replaced by the exact canonical text
`{ session } = data`: a match with arbitrary whitespace runs in the five
gaps, followed by match-free text, becomes the canonical replacement
followed by that text. -/
theorem c10_canonical_replacement {w1 w2 w3 w4 w5 r : List Char}
    (h1 : allWs w1) (h2 : allWs w2) (h3 : allWs w3) (h4 : allWs w4) (h5 : allWs w5)
    (hr : hasMatch1B r = false) :
    sub1 ('{' :: (w1 ++ (litSupa ++ (w2 ++ (litSess ++ (w3 ++ ('}' :: (w4 ++
      ('=' :: (w5 ++ (litData ++ r))))))))))) = repl ++ r := by
  have hm : matchR1 ('{' :: (w1 ++ (litSupa ++ (w2 ++ (litSess ++ (w3 ++ ('}' :: (w4 ++
      ('=' :: (w5 ++ (litData ++ r))))))))))) = some r := by
    apply matchR1_eq_some.mpr
    refine ⟨_, ⟨w1, w2, w3, w4, w5, h1, h2, h3, h4, h5, rfl⟩, ?_⟩
    simp [List.append_assoc]
  rw [sub1_cons_some hm, sub1_id (hasMatch1B_eq_false_iff.mp hr)]

theorem c10_witness :
    allWs ['\t'] ∧ allWs ['\n', ' '] ∧ allWs ([] : List Char) ∧ allWs [' '] ∧
    allWs [' '] ∧ hasMatch1B ['!'] = false ∧
    sub1 ('{' :: (['\t'] ++ (litSupa ++ (['\n', ' '] ++ (litSess ++ (([] : List Char) ++
      ('}' :: ([' '] ++ ('=' :: ([' '] ++ (litData ++ ['!']))))))))))) = repl ++ ['!'] :=
  ⟨by decide, by decide, by decide, by decide, by decide, rfl,
   c10_canonical_replacement (by decide) (by decide) (by decide) (by decide) (by decide) rfl⟩
